import Mathlib

/-!
# Verification of the eendraadschema share-server core

Shallow embedding of the share/session/authorization subsystem of the
eendraadschema repository (Go backend: `server/internal/store/store.go` for the
persistence layer and the `api` package for the HTTP handlers).

Modelling conventions:
* Unix timestamps (`time.Time.Unix()` seconds) are `Int`.
* Database tables are Lean lists kept in insertion order; SQLite's implicit
  `rowid` (insertion sequence) is carried explicitly where a query's ordering
  can depend on it.
* Fallible store operations return `Except StoreErr _`; `store.ErrNotFound`
  is the distinguished `StoreErr.notFound`.
* The relational engine's query execution is an external collaborator (spec
  section 1); single-row SQL statements are translated to the corresponding
  pure list operations, and a multi-statement transaction is a function that
  either returns the fully-updated state or an error (rollback = the caller
  keeps the previous state).
* The OIDC credential verifier (JWKS crypto) is likewise external: a request
  carries `bearer : Option AuthUser`, the identity produced by successful
  bearer-token verification, `none` when the token is absent or invalid.
-/

namespace EDS

/-- Store-layer error: the distinguished not-found error (`store.ErrNotFound`)
versus any other (infrastructure / validation) error. -/
inductive StoreErr where
  | notFound
  | other (msg : String)
deriving Repr, DecidableEq

/-- `store.SessionModel`: one row of the `sessions` table. -/
structure SessionModel where
  token : String
  shareId : String
  expiresAt : Int
  createdAt : Int
deriving Repr, DecidableEq

/-- `store.CreateSession`: unconditional single-row insert (the `token`
primary key makes a duplicate-token insert a constraint error). -/
def CreateSession (sessions : List SessionModel) (token shareId : String)
    (expiresAt createdAt : Int) : Except StoreErr (List SessionModel) :=
  if sessions.any (fun s => s.token == token) then
    .error (.other "unique constraint: sessions.token")
  else
    .ok (sessions ++ [⟨token, shareId, expiresAt, createdAt⟩])

/-- `store.GetSessionShareID`: look up a session by token; absent token is
not-found; an expired row (`now.Unix() >= m.ExpiresAt`) is deleted as a side
effect and reported not-found; otherwise the bound share id is returned.
Returns the result together with the session table after the call. -/
def GetSessionShareID (sessions : List SessionModel) (token : String) (now : Int) :
    Except StoreErr String × List SessionModel :=
  match sessions.find? (fun s => s.token == token) with
  | none => (.error .notFound, sessions)
  | some m =>
    if now ≥ m.expiresAt then
      (.error .notFound, sessions.filter (fun s => !(s.token == token)))
    else
      (.ok m.shareId, sessions)

/-- `store.CleanupExpiredSessions`: bulk-delete all rows with
`expires_at <= now` (best-effort; error ignored by every caller). -/
def CleanupExpiredSessions (sessions : List SessionModel) (now : Int) :
    List SessionModel :=
  sessions.filter (fun s => !(s.expiresAt ≤ now))

end EDS

namespace EDS

/-- Byte sequence of a string, as Go sees it (`[]byte(s)`, UTF-8). -/
def strBytes (s : String) : List Nat :=
  s.toUTF8.toList.map (fun b => b.toNat)

/-- `crypto/subtle.ConstantTimeCompare`: 0 when the lengths differ, otherwise
1 exactly when the bitwise OR of the bytewise XORs is zero. -/
def constantTimeCompare (x y : List Nat) : Nat :=
  if x.length ≠ y.length then 0
  else if (List.zipWith (fun a b => a ^^^ b) x y).foldl (fun acc v => acc ||| v) 0 = 0
  then 1 else 0

/-- `api.passwordOK`: length check first, then constant-time compare of the
supplied password against the configured secret (`cfg.APIPassword`). -/
def passwordOK (password apiPassword : String) : Bool :=
  if (strBytes password).length ≠ (strBytes apiPassword).length then false
  else constantTimeCompare (strBytes password) (strBytes apiPassword) == 1

end EDS

namespace EDS

/-- `x ||| y = 0` exactly when both operands are zero (bitwise view). -/
lemma nat_or_eq_zero_iff (x y : Nat) : x ||| y = 0 ↔ x = 0 ∧ y = 0 := by
  constructor
  · intro h
    refine ⟨Nat.zero_of_testBit_eq_false fun i => ?_, Nat.zero_of_testBit_eq_false fun i => ?_⟩
    · have hh := congrArg (fun n => Nat.testBit n i) h
      simp only [Nat.testBit_lor, Nat.zero_testBit, Bool.or_eq_false_iff] at hh
      exact hh.1
    · have hh := congrArg (fun n => Nat.testBit n i) h
      simp only [Nat.testBit_lor, Nat.zero_testBit, Bool.or_eq_false_iff] at hh
      exact hh.2
  · rintro ⟨rfl, rfl⟩
    rfl

/-- Folding `|||` over a list yields zero exactly when the accumulator and all
elements are zero. -/
lemma foldl_or_eq_zero (l : List Nat) (acc : Nat) :
    l.foldl (fun a v => a ||| v) acc = 0 ↔ acc = 0 ∧ ∀ v ∈ l, v = 0 := by
  induction l generalizing acc with
  | nil => simp
  | cons x t ih =>
    simp only [List.foldl_cons, ih, nat_or_eq_zero_iff, List.mem_cons]
    constructor
    · rintro ⟨⟨ha, hx⟩, hall⟩
      exact ⟨ha, fun v hv => hv.elim (fun h => h ▸ hx) (hall v)⟩
    · rintro ⟨ha, hall⟩
      exact ⟨⟨ha, hall x (Or.inl rfl)⟩, fun v hv => hall v (Or.inr hv)⟩

/-- Equal-length byte lists whose pointwise XORs are all zero are equal. -/
lemma zipWith_xor_zero (x y : List Nat) (hlen : x.length = y.length)
    (h : ∀ v ∈ List.zipWith (fun a b => a ^^^ b) x y, v = 0) : x = y := by
  induction x generalizing y with
  | nil => cases y with
    | nil => rfl
    | cons b t => simp at hlen
  | cons a s ih =>
    cases y with
    | nil => simp at hlen
    | cons b t =>
      simp only [List.zipWith_cons_cons, List.mem_cons] at h
      have hab : a = b := Nat.xor_eq_zero.mp (h (a ^^^ b) (Or.inl rfl))
      have hst : s = t := ih t (by simpa using hlen) (fun v hv => h v (Or.inr hv))
      rw [hab, hst]

/-- C7: the shared-secret password check succeeds if and only if the supplied
password is byte-for-byte equal to the configured secret; any byte sequence
differing in any position or in length fails. -/
theorem passwordOK_iff_bytes_eq (password apiPassword : String) :
    passwordOK password apiPassword = true ↔ strBytes password = strBytes apiPassword := by
  unfold passwordOK constantTimeCompare
  by_cases hlen : (strBytes password).length = (strBytes apiPassword).length
  · rw [if_neg (fun h => h hlen), if_neg (fun h => h hlen)]
    by_cases hz : (List.zipWith (fun a b => a ^^^ b) (strBytes password)
        (strBytes apiPassword)).foldl (fun acc v => acc ||| v) 0 = 0
    · have heq : strBytes password = strBytes apiPassword :=
        zipWith_xor_zero _ _ hlen ((foldl_or_eq_zero _ _).mp hz).2
      rw [if_pos hz]
      exact iff_of_true rfl heq
    · have hne : strBytes password ≠ strBytes apiPassword := by
        intro he
        apply hz
        rw [foldl_or_eq_zero]
        refine ⟨rfl, fun v hv => ?_⟩
        rw [he, List.zipWith_same] at hv
        obtain ⟨a, _, rfl⟩ := List.mem_map.mp hv
        exact Nat.xor_self a
      rw [if_neg hz]
      exact iff_of_false (by decide) hne
  · have hne : strBytes password ≠ strBytes apiPassword := fun he => hlen (by rw [he])
    rw [if_pos hlen]
    exact iff_of_false (by decide) hne

end EDS

namespace EDS

/-- Reduction of `GetSessionShareID` when the token is found. -/
lemma GetSessionShareID_of_find (sessions : List SessionModel) (token : String)
    (now : Int) (m : SessionModel)
    (h : sessions.find? (fun s => s.token == token) = some m) :
    GetSessionShareID sessions token now =
      if now ≥ m.expiresAt then
        (.error .notFound, sessions.filter (fun s => !(s.token == token)))
      else (.ok m.shareId, sessions) := by
  unfold GetSessionShareID
  rw [h]

/-- C3: after creating a session `(token, shareId, expiresAt)`, looking the
token up at time `now` returns `shareId` whenever `now < expiresAt`; it fails
with the distinguished not-found error whenever `now >= expiresAt` (and in
that case the expired row is deleted by the lookup) or whenever the token is
absent from the session table. -/
theorem session_lookup_spec
    (sessions sessions1 : List SessionModel) (token shareId : String)
    (expiresAt createdAt now : Int)
    (hcreate : CreateSession sessions token shareId expiresAt createdAt = .ok sessions1) :
    (now < expiresAt →
       GetSessionShareID sessions1 token now = (.ok shareId, sessions1)) ∧
    (now ≥ expiresAt →
       (GetSessionShareID sessions1 token now).1 = .error .notFound ∧
       (GetSessionShareID sessions1 token now).2.find? (fun s => s.token == token) = none) ∧
    (∀ absent : List SessionModel,
       absent.find? (fun s => s.token == token) = none →
       GetSessionShareID absent token now = (.error .notFound, absent)) := by
  have hany : sessions.any (fun s => s.token == token) = false := by
    by_contra hc
    rw [Bool.not_eq_false] at hc
    unfold CreateSession at hcreate
    rw [if_pos hc] at hcreate
    exact Except.noConfusion hcreate
  have hs1 : sessions1 = sessions ++ [⟨token, shareId, expiresAt, createdAt⟩] := by
    unfold CreateSession at hcreate
    rw [if_neg (by simp [hany])] at hcreate
    exact (Except.ok.inj hcreate).symm
  have hrow : sessions1.find? (fun s => s.token == token) =
      some ⟨token, shareId, expiresAt, createdAt⟩ := by
    rw [hs1, List.find?_append]
    have hnone : sessions.find? (fun s => s.token == token) = none := by
      rw [List.find?_eq_none]
      intro x hx
      simpa using List.any_eq_false.mp hany x hx
    rw [hnone]
    simp [List.find?]
  refine ⟨?_, ?_, ?_⟩
  · intro hlt
    rw [GetSessionShareID_of_find sessions1 token now _ hrow]
    rw [if_neg (by simpa using not_le.mpr hlt)]
  · intro hge
    rw [GetSessionShareID_of_find sessions1 token now _ hrow]
    rw [if_pos (by simpa using hge)]
    refine ⟨rfl, ?_⟩
    rw [List.find?_eq_none]
    intro x hx
    simpa using (List.mem_filter.mp hx).2
  · intro absent habs
    unfold GetSessionShareID
    rw [habs]

/-- Concrete instance of `session_lookup_spec`: a session created with expiry
10 is found at time 3, reported not-found at time 12, and an unknown token is
not-found. -/
theorem session_lookup_spec_witness :
    (GetSessionShareID [⟨"t", "s1", 10, 0⟩] "t" 3 = (.ok "s1", [⟨"t", "s1", 10, 0⟩])) ∧
    ((GetSessionShareID [⟨"t", "s1", 10, 0⟩] "t" 12).1 = .error .notFound) ∧
    (GetSessionShareID [] "t" 3 = (.error .notFound, [])) := by
  have h3 := session_lookup_spec [] [⟨"t", "s1", 10, 0⟩] "t" "s1" 10 0 3 (by rfl)
  have h12 := session_lookup_spec [] [⟨"t", "s1", 10, 0⟩] "t" "s1" 10 0 12 (by rfl)
  exact ⟨h3.1 (by decide), (h12.2.1 (by decide)).1, h3.2.2 [] (by rfl)⟩

end EDS


namespace EDS

/-- Go's `strings.TrimSpace`: strip leading and trailing whitespace. -/
def trimSpace (s : String) : String :=
  ⟨((s.toList.dropWhile Char.isWhitespace).reverse.dropWhile Char.isWhitespace).reverse⟩

/-- `store.TeamModel`: one row of the `teams` table. -/
structure TeamModel where
  id : String
  name : String
  ownerSub : String
  createdAt : Int
deriving Repr, DecidableEq

/-- `store.TeamMemberModel`: one row of the `team_members` table
(primary key `(team_id, user_sub)`). -/
structure TeamMemberModel where
  teamId : String
  userSub : String
  role : String
  createdAt : Int
deriving Repr, DecidableEq

/-- `store.TeamInviteModel`: one row of the `team_invites` table
(primary key `token`; `accepted_by_sub` / `accepted_at` nullable). -/
structure TeamInviteModel where
  token : String
  teamId : String
  email : String
  createdBySub : String
  createdAt : Int
  expiresAt : Int
  acceptedBySub : Option String
  acceptedAt : Option Int
deriving Repr, DecidableEq

/-- The store state touched by team creation and invite acceptance. -/
structure TeamStore where
  teams : List TeamModel
  members : List TeamMemberModel
  invites : List TeamInviteModel
deriving Repr, DecidableEq

/-- `store.CreateTeam`: validate inputs, then in one transaction insert the
team row and the owner's membership row with role `"owner"`; a primary-key
conflict on either insert fails the transaction, rolling both inserts back
(the caller keeps the previous state). -/
def CreateTeam (st : TeamStore) (id name ownerSub : String) (now : Int) :
    Except StoreErr TeamStore :=
  if trimSpace ownerSub = "" then .error (.other "ownerSub is required")
  else if trimSpace name = "" then .error (.other "team name is required")
  else if st.teams.any (fun t => t.id == id) then
    .error (.other "unique constraint: teams.id")
  else if st.members.any (fun m => m.teamId == id && m.userSub == trimSpace ownerSub) then
    .error (.other "unique constraint: team_members pk")
  else
    .ok { st with
          teams := st.teams ++ [⟨id, trimSpace name, trimSpace ownerSub, now⟩],
          members := st.members ++ [⟨id, trimSpace ownerSub, "owner", now⟩] }

/-- The store state after a `CreateTeam` call: the transaction's result on
success, the unchanged previous state on failure (rollback). -/
def CreateTeamPost (st : TeamStore) (id name ownerSub : String) (now : Int) :
    TeamStore :=
  match CreateTeam st id name ownerSub now with
  | .ok st1 => st1
  | .error _ => st

/-- `store.AcceptTeamInvite`: transactional. Look the invite up by token
(not-found if absent); if already accepted, return its team id idempotently
with no writes; if expired (`now.Unix() > inv.ExpiresAt`) and unaccepted,
fail not-found; otherwise mark the invite accepted and insert the membership
row with role `"member"`, silently absorbing an existing `(team_id, user_sub)`
membership (`ON CONFLICT DO NOTHING`). Returns the team id and the state
after the transaction. -/
def AcceptTeamInvite (st : TeamStore) (token acceptedBySub : String) (now : Int) :
    Except StoreErr (String × TeamStore) :=
  if trimSpace acceptedBySub = "" then .error (.other "acceptedBySub is required")
  else
    match st.invites.find? (fun i => i.token == token) with
    | none => .error .notFound
    | some inv =>
      if inv.acceptedAt.isSome then .ok (inv.teamId, st)
      else if now > inv.expiresAt then .error .notFound
      else
        .ok (inv.teamId,
          { st with
            invites := st.invites.map (fun i =>
              if i.token == token && i.acceptedAt.isNone then
                { i with acceptedBySub := some (trimSpace acceptedBySub),
                         acceptedAt := some now }
              else i),
            members :=
              if st.members.any (fun m =>
                  m.teamId == inv.teamId && m.userSub == trimSpace acceptedBySub) then
                st.members
              else
                st.members ++ [⟨inv.teamId, trimSpace acceptedBySub, "member", now⟩] })

/-- Reduction of `AcceptTeamInvite` when the token is found. -/
lemma AcceptTeamInvite_of_find (st : TeamStore) (token sub : String) (now : Int)
    (inv : TeamInviteModel)
    (hs : trimSpace sub ≠ "")
    (h : st.invites.find? (fun i => i.token == token) = some inv) :
    AcceptTeamInvite st token sub now =
      (if inv.acceptedAt.isSome then .ok (inv.teamId, st)
       else if now > inv.expiresAt then .error .notFound
       else
         .ok (inv.teamId,
           { st with
             invites := st.invites.map (fun i =>
               if i.token == token && i.acceptedAt.isNone then
                 { i with acceptedBySub := some (trimSpace sub),
                          acceptedAt := some now }
               else i),
             members :=
               if st.members.any (fun m =>
                   m.teamId == inv.teamId && m.userSub == trimSpace sub) then
                 st.members
               else
                 st.members ++ [⟨inv.teamId, trimSpace sub, "member", now⟩] })) := by
  unfold AcceptTeamInvite
  rw [if_neg hs, h]

end EDS

namespace EDS

/-- C10: accepting an invite whose accepted-at field is already set returns
the invite's team id and changes no state, for every time `now` (even past
the invite's expiry) and every accepting subject (no membership row is
created for them). -/
theorem accept_already_accepted_noop
    (st : TeamStore) (token sub : String) (now : Int) (inv : TeamInviteModel)
    (hfind : st.invites.find? (fun i => i.token == token) = some inv)
    (hacc : inv.acceptedAt.isSome = true)
    (hsub : trimSpace sub ≠ "") :
    AcceptTeamInvite st token sub now = .ok (inv.teamId, st) := by
  rw [AcceptTeamInvite_of_find st token sub now inv hsub hfind, if_pos hacc]

/-- Concrete instance of `accept_already_accepted_noop`: a second accept of an
already-accepted invite, after expiry and by a different subject, returns the
team id and leaves the store untouched. -/
theorem accept_already_accepted_noop_witness :
    AcceptTeamInvite
      ⟨[], [⟨"team1", "bob", "member", 5⟩],
       [⟨"tok", "team1", "", "alice", 0, 10, some "bob", some 5⟩]⟩
      "tok" "carol" 999 =
    .ok ("team1",
      ⟨[], [⟨"team1", "bob", "member", 5⟩],
       [⟨"tok", "team1", "", "alice", 0, 10, some "bob", some 5⟩]⟩) :=
  accept_already_accepted_noop _ "tok" "carol" 999
    ⟨"tok", "team1", "", "alice", 0, 10, some "bob", some 5⟩
    (by rfl) (by rfl) (by decide)

/-- C9: team creation is all-or-nothing. On success both the team row and the
owner's `"owner"` membership row exist afterwards; on failure the transaction
rolls back, so for a fresh team id neither a team row nor any membership row
for that id exists afterwards. -/
theorem createTeam_atomic (st : TeamStore) (id name ownerSub : String) (now : Int)
    (hta : st.teams.all (fun t => !(t.id == id)) = true)
    (hma : st.members.all (fun m => !(m.teamId == id)) = true) :
    (∀ st1, CreateTeam st id name ownerSub now = .ok st1 →
        (⟨id, trimSpace name, trimSpace ownerSub, now⟩ : TeamModel) ∈ st1.teams ∧
        (⟨id, trimSpace ownerSub, "owner", now⟩ : TeamMemberModel) ∈ st1.members) ∧
    (∀ e, CreateTeam st id name ownerSub now = .error e →
        (CreateTeamPost st id name ownerSub now).teams.all
          (fun t => !(t.id == id)) = true ∧
        (CreateTeamPost st id name ownerSub now).members.all
          (fun m => !(m.teamId == id)) = true) := by
  constructor
  · intro st1 h
    unfold CreateTeam at h
    split at h
    · exact Except.noConfusion h
    · split at h
      · exact Except.noConfusion h
      · split at h
        · exact Except.noConfusion h
        · split at h
          · exact Except.noConfusion h
          · have hs : st1 = { st with
                teams := st.teams ++ [⟨id, trimSpace name, trimSpace ownerSub, now⟩],
                members := st.members ++ [⟨id, trimSpace ownerSub, "owner", now⟩] } :=
              (Except.ok.inj h).symm
            subst hs
            constructor
            · exact List.mem_append_right _ (List.mem_singleton.mpr rfl)
            · exact List.mem_append_right _ (List.mem_singleton.mpr rfl)
  · intro e he
    unfold CreateTeamPost
    rw [he]
    exact ⟨hta, hma⟩

/-- Concrete instance of `createTeam_atomic`: creating a fresh team succeeds
with both rows present; creating with an empty name fails and leaves no row
for the id. -/
theorem createTeam_atomic_witness :
    ((⟨"t1", "Team", "alice", 0⟩ : TeamModel) ∈
        (TeamStore.mk [⟨"t1", "Team", "alice", 0⟩] [⟨"t1", "alice", "owner", 0⟩] []).teams ∧
     (⟨"t1", "alice", "owner", 0⟩ : TeamMemberModel) ∈
        (TeamStore.mk [⟨"t1", "Team", "alice", 0⟩] [⟨"t1", "alice", "owner", 0⟩] []).members) ∧
    ((CreateTeamPost ⟨[], [], []⟩ "t1" "" "alice" 0).teams.all
        (fun t => !(t.id == "t1")) = true) := by
  have h := createTeam_atomic ⟨[], [], []⟩ "t1" "Team" "alice" 0 (by rfl) (by rfl)
  have h2 := createTeam_atomic ⟨[], [], []⟩ "t1" "" "alice" 0 (by rfl) (by rfl)
  exact ⟨h.1 _ (by rfl), (h2.2 (.other "team name is required") (by rfl)).1⟩

end EDS

namespace EDS

/-- In a list whose elements pairwise never both satisfy `p`, if some member
satisfies `p` then exactly one does. -/
lemma filter_length_eq_one {α : Type} {l : List α} {p : α → Bool}
    (hpw : l.Pairwise (fun a b => ¬(p a = true ∧ p b = true)))
    {x : α} (hx : x ∈ l) (hpx : p x = true) :
    (l.filter p).length = 1 := by
  induction l with
  | nil => cases hx
  | cons a t ih =>
    rw [List.pairwise_cons] at hpw
    rcases List.mem_cons.mp hx with rfl | hxt
    · rw [List.filter_cons_of_pos hpx]
      have ht : t.filter p = [] := by
        rw [List.filter_eq_nil_iff]
        intro b hb hpb
        exact hpw.1 b hb ⟨hpx, hpb⟩
      rw [ht]
      rfl
    · by_cases hpa : p a = true
      · exact absurd ⟨hpa, hpx⟩ (hpw.1 x hxt)
      · rw [List.filter_cons_of_neg (by simpa using hpa)]
        exact ih hpw.2 hxt

/-- C5: accepting a valid, unexpired invite twice (same subject) returns the
same team id both times, the second accept changes no state, and exactly one
membership row for `(teamId, sub)` remains; accepting an expired, unaccepted
invite fails with the distinguished not-found error. -/
theorem accept_invite_idempotent
    (st : TeamStore) (token sub : String) (now1 now2 : Int) (inv : TeamInviteModel)
    (hfind : st.invites.find? (fun i => i.token == token) = some inv)
    (hun : inv.acceptedAt = none)
    (hsub : trimSpace sub = sub) (hne : sub ≠ "")
    (hkeys : st.members.Pairwise
      (fun a b => ¬(a.teamId = b.teamId ∧ a.userSub = b.userSub))) :
    (now1 ≤ inv.expiresAt →
      ∃ st1, AcceptTeamInvite st token sub now1 = .ok (inv.teamId, st1) ∧
        AcceptTeamInvite st1 token sub now2 = .ok (inv.teamId, st1) ∧
        (st1.members.filter
          (fun m => m.teamId == inv.teamId && m.userSub == sub)).length = 1) ∧
    (now1 > inv.expiresAt →
      AcceptTeamInvite st token sub now1 = .error .notFound) := by
  have hts : trimSpace sub ≠ "" := by rw [hsub]; exact hne
  have hnotSome : ¬(inv.acceptedAt.isSome = true) := by rw [hun]; simp
  constructor
  · intro hle
    refine ⟨{ st with
        invites := st.invites.map (fun i =>
          if i.token == token && i.acceptedAt.isNone then
            { i with acceptedBySub := some sub, acceptedAt := some now1 }
          else i),
        members :=
          if st.members.any (fun m => m.teamId == inv.teamId && m.userSub == sub) then
            st.members
          else st.members ++ [⟨inv.teamId, sub, "member", now1⟩] }, ?_, ?_, ?_⟩
    · rw [AcceptTeamInvite_of_find st token sub now1 inv hts hfind, hsub,
        if_neg hnotSome, if_neg (not_lt.mpr hle)]
    · have htok : (inv.token == token) = true := by
        have h := List.find?_some hfind
        exact h
      have hfind1 : (st.invites.map (fun i =>
          if i.token == token && i.acceptedAt.isNone then
            { i with acceptedBySub := some sub, acceptedAt := some now1 }
          else i)).find? (fun i => i.token == token) =
          some { inv with acceptedBySub := some sub, acceptedAt := some now1 } := by
        have hcomp : ((fun i : TeamInviteModel => i.token == token) ∘
            (fun i : TeamInviteModel =>
              if i.token == token && i.acceptedAt.isNone then
                { i with acceptedBySub := some sub, acceptedAt := some now1 }
              else i)) = (fun i => i.token == token) := by
          funext i
          by_cases hc : (i.token == token && i.acceptedAt.isNone) = true
          · simp only [Function.comp_apply, if_pos hc]
          · simp only [Function.comp_apply, if_neg hc]
        rw [List.find?_map, hcomp, hfind, Option.map_some']
        rw [if_pos (by rw [htok, hun]; rfl)]
      rw [AcceptTeamInvite_of_find _ token sub now2 _ hts hfind1, if_pos (by rfl)]
    · by_cases hany : (st.members.any
          (fun m => m.teamId == inv.teamId && m.userSub == sub)) = true
      · simp only [if_pos hany]
        obtain ⟨x, hx, hpx⟩ := List.any_eq_true.mp hany
        refine filter_length_eq_one (hkeys.imp ?_) hx hpx
        intro a b hab hc
        apply hab
        simp only [Bool.and_eq_true, beq_iff_eq] at hc
        exact ⟨hc.1.1.trans hc.2.1.symm, hc.1.2.trans hc.2.2.symm⟩
      · simp only [if_neg hany]
        rw [List.filter_append]
        have hanyf : (st.members.any
            (fun m => m.teamId == inv.teamId && m.userSub == sub)) = false :=
          eq_false_of_ne_true hany
        have hnil : st.members.filter
            (fun m => m.teamId == inv.teamId && m.userSub == sub) = [] := by
          rw [List.filter_eq_nil_iff]
          intro b hb
          exact List.any_eq_false.mp hanyf b hb
        rw [hnil, List.nil_append]
        simp
  · intro hgt
    rw [AcceptTeamInvite_of_find st token sub now1 inv hts hfind,
      if_neg hnotSome, if_pos hgt]

/-- Concrete instance of `accept_invite_idempotent`: a fresh invite accepted
twice at times 5 and 7 (expiry 10) yields team `"team1"` both times with a
single membership row. -/
theorem accept_invite_idempotent_witness :
    ∃ st1, AcceptTeamInvite ⟨[], [], [⟨"tok", "team1", "", "alice", 0, 10, none, none⟩]⟩
        "tok" "bob" 5 = .ok ("team1", st1) ∧
      AcceptTeamInvite st1 "tok" "bob" 7 = .ok ("team1", st1) ∧
      (st1.members.filter (fun m => m.teamId == "team1" && m.userSub == "bob")).length = 1 := by
  have h := accept_invite_idempotent
      ⟨[], [], [⟨"tok", "team1", "", "alice", 0, 10, none, none⟩]⟩
      "tok" "bob" 5 7 ⟨"tok", "team1", "", "alice", 0, 10, none, none⟩
      (by rfl) rfl (by rfl) (by decide) List.Pairwise.nil
  exact h.1 (by decide)

end EDS

namespace EDS

/-- `store.UserModel`: one row of the `users` table (primary key `sub`). -/
structure UserModel where
  sub : String
  email : String
  name : String
  isAdmin : Bool
  createdAt : Int
  updatedAt : Int
  lastSeenAt : Int
deriving Repr, DecidableEq

/-- `store.UpsertOIDCUser`: insert the user with `ON CONFLICT (sub) DO
NOTHING` (admin flag false, all timestamps `now`), then unconditionally bump
`last_seen_at` and `updated_at` for that `sub`. -/
def UpsertOIDCUser (users : List UserModel) (sub email name : String) (now : Int) :
    Except StoreErr (List UserModel) :=
  if trimSpace sub = "" then .error (.other "user sub is required")
  else
    .ok (((if users.any (fun u => u.sub == trimSpace sub) then users
           else users ++
             [⟨trimSpace sub, trimSpace email, trimSpace name, false, now, now, now⟩])).map
      (fun u => if u.sub == trimSpace sub then
          { u with lastSeenAt := now, updatedAt := now }
        else u))

/-- `store.SetUserAdmin`: update `is_admin` and `updated_at` for the given
`sub`; zero rows affected is reported as the distinguished not-found error. -/
def SetUserAdmin (users : List UserModel) (sub : String) (isAdmin : Bool) (now : Int) :
    Except StoreErr (List UserModel) :=
  if trimSpace sub = "" then .error (.other "user sub is required")
  else if users.any (fun u => u.sub == trimSpace sub) then
    .ok (users.map (fun u => if u.sub == trimSpace sub then
        { u with isAdmin := isAdmin, updatedAt := now }
      else u))
  else .error .notFound

/-- C8: for a `sub` that already has a user record, the upsert-on-login
operation touches only `lastSeenAt` and `updatedAt` of that record — its
`isAdmin`, `email`, `name` and `createdAt` are unchanged, and every other
record is untouched; only the explicit `SetUserAdmin` operation changes the
admin flag. -/
theorem upsert_existing_user_frame
    (users : List UserModel) (sub email name : String) (now : Int)
    (hex : users.any (fun u => u.sub == trimSpace sub) = true)
    (hsub : trimSpace sub ≠ "") :
    (UpsertOIDCUser users sub email name now =
      .ok (users.map (fun u => if u.sub == trimSpace sub then
          { u with lastSeenAt := now, updatedAt := now }
        else u))) ∧
    (∀ u ∈ users, u.sub = trimSpace sub →
      ({ u with lastSeenAt := now, updatedAt := now } : UserModel).isAdmin = u.isAdmin ∧
      ({ u with lastSeenAt := now, updatedAt := now } : UserModel).email = u.email ∧
      ({ u with lastSeenAt := now, updatedAt := now } : UserModel).name = u.name ∧
      ({ u with lastSeenAt := now, updatedAt := now } : UserModel).createdAt = u.createdAt) ∧
    (∀ users1, SetUserAdmin users sub true now = .ok users1 →
      ∀ u ∈ users, u.sub = trimSpace sub →
        ({ u with isAdmin := true, updatedAt := now } : UserModel) ∈ users1) := by
  refine ⟨?_, ?_, ?_⟩
  · unfold UpsertOIDCUser
    rw [if_neg hsub, if_pos hex]
  · intro u _ _
    exact ⟨rfl, rfl, rfl, rfl⟩
  · intro users1 hset u hu hueq
    unfold SetUserAdmin at hset
    rw [if_neg hsub, if_pos hex] at hset
    have h1 : users1 = users.map (fun u => if u.sub == trimSpace sub then
        { u with isAdmin := true, updatedAt := now }
      else u) := (Except.ok.inj hset).symm
    subst h1
    have : (fun v : UserModel => if v.sub == trimSpace sub then
        { v with isAdmin := true, updatedAt := now }
      else v) u = { u with isAdmin := true, updatedAt := now } := by
      simp [hueq]
    exact this ▸ List.mem_map_of_mem _ hu

/-- Concrete instance of `upsert_existing_user_frame`: re-login of an existing
admin user bumps only the last-seen and updated timestamps. -/
theorem upsert_existing_user_frame_witness :
    UpsertOIDCUser [⟨"alice", "a@x", "Alice", true, 1, 1, 1⟩] "alice" "new@x" "New" 9 =
      .ok [⟨"alice", "a@x", "Alice", true, 1, 9, 9⟩] :=
  (upsert_existing_user_frame [⟨"alice", "a@x", "Alice", true, 1, 1, 1⟩]
    "alice" "new@x" "New" 9 (by rfl) (by decide)).1

end EDS

namespace EDS

/-- Go `strings.HasPrefix`. -/
def goHasPrefix (s pre : String) : Bool :=
  pre.toList.isPrefixOf s.toList

/-- A share record as the api layer sees it (`store.Share` of the api's store
generation: id, display name, schema blob, owner subject, optional team id,
timestamps). -/
structure Share where
  id : String
  name : String
  schema : String
  ownerSub : String
  teamId : Option String
  createdAt : Int
  updatedAt : Int
deriving Repr, DecidableEq

/-- `store.GetShare`: single-row lookup by primary key, not-found if absent. -/
def GetShare (shares : List Share) (id : String) : Except StoreErr Share :=
  match shares.find? (fun s => s.id == id) with
  | none => .error .notFound
  | some sh => .ok sh

/-- Modelled from the spec: `store.DeleteShare` (section 4.3 "deleteShare:
hard delete"), a store method called by the api but absent from the provided
store source — delete the row by id, reporting not-found when no row matched. -/
def DeleteShare (shares : List Share) (id : String) : Except StoreErr (List Share) :=
  if shares.any (fun s => s.id == id) then
    .ok (shares.filter (fun s => !(s.id == id)))
  else .error .notFound

/-- Modelled from the spec: `store.UpdateShareFields` (section 4.3
"updateShare(id, schemaOrNil, nameOrNil)"), a store method called by the api
but absent from the provided store source — overwrite the provided fields,
bump `updatedAt`, not-found if the id does not exist. -/
def UpdateShareFields (shares : List Share) (id : String)
    (schema? name? : Option String) (now : Int) : Except StoreErr (List Share) :=
  if shares.any (fun s => s.id == id) then
    .ok (shares.map (fun s =>
      if s.id == id then
        { s with schema := schema?.getD s.schema, name := name?.getD s.name,
                 updatedAt := now }
      else s))
  else .error .notFound

/-- `store.IsTeamMember`: role lookup; `found = false` is not an error. -/
def IsTeamMember (members : List TeamMemberModel) (teamId userSub : String) :
    String × Bool :=
  match members.find? (fun m =>
      m.teamId == trimSpace teamId && m.userSub == trimSpace userSub) with
  | none => ("", false)
  | some m => (m.role, true)

/-- The identity produced by successful bearer-token verification
(`auth.User`); the verifier itself (JWKS crypto) is external. -/
structure AuthUser where
  sub : String
  email : String
  name : String
deriving Repr, DecidableEq

/-- An error response: HTTP status plus stable machine-readable code. -/
structure ApiErr where
  status : Nat
  code : String
deriving Repr, DecidableEq

/-- `api.requireUser`: 401 `oidc_not_enabled` when the deployment has no OIDC
verifier; 401 `unauthorized` when bearer-token verification failed; otherwise
the verified identity. The best-effort user bookkeeping on success
(`UpsertOIDCUser` / bootstrap `SetUserAdmin`, errors discarded) touches only
the users table and never the response, and is omitted here. -/
def requireUser (oidcEnabled : Bool) (bearer : Option AuthUser) :
    Except ApiErr AuthUser :=
  if oidcEnabled = false then .error ⟨401, "oidc_not_enabled"⟩
  else
    match bearer with
    | none => .error ⟨401, "unauthorized"⟩
    | some u => .ok u

/-- `store.ShareVersionModel`: one row of the `share_versions` table.
`rowid` is the engine's insertion sequence number, which breaks ties when
rows share a `created_at` second. -/
structure ShareVersionModel where
  rowid : Nat
  id : String
  shareId : String
  schema : String
  createdAt : Int
  createdBySub : String
deriving Repr, DecidableEq

/-- Strict "older than" in the `(created_at, rowid)` descending order used by
the version queries. -/
def svKeyLt (a b : ShareVersionModel) : Bool :=
  a.createdAt < b.createdAt || (a.createdAt == b.createdAt && a.rowid < b.rowid)

/-- `store.AddShareVersion`: validate the share id, then insert the snapshot
row (fresh UUID primary key supplied by the caller); `next` is the engine's
next insertion sequence number. -/
def AddShareVersion (versions : List ShareVersionModel) (next : Nat)
    (versionId shareId schema createdBySub : String) (now : Int) :
    Except StoreErr (List ShareVersionModel × Nat) :=
  if trimSpace shareId = "" then .error (.other "shareID is required")
  else
    .ok (versions ++
      [⟨next, trimSpace versionId, trimSpace shareId, schema, now, trimSpace createdBySub⟩],
      next + 1)

/-- `store.PruneShareVersions`: net effect of the chunked delete loop
(`ORDER BY created_at DESC` / `OFFSET keep` / `LIMIT 500`, repeated until
empty): a version row of the share is deleted exactly when at least `keep`
rows of the same share are strictly newer in the `(created_at, rowid)`
descending order the query scans; `keep <= 0` deletes nothing. -/
def PruneShareVersions (versions : List ShareVersionModel) (shareId : String)
    (keep : Int) : Except StoreErr (List ShareVersionModel) :=
  if trimSpace shareId = "" then .error (.other "shareID is required")
  else if keep ≤ 0 then .ok versions
  else
    .ok (versions.filter (fun r =>
      !(r.shareId == trimSpace shareId) ||
      decide (((versions.filter (fun x =>
        x.shareId == trimSpace shareId && svKeyLt r x)).length : Int) < keep)))

/-- The version bookkeeping performed after a successful share update
(api `handleUpdateShare`, tail): append a version row when the update wrote a
schema, then prune when retention is configured — both best-effort, errors
discarded. -/
def shareVersionBookkeeping (versions : List ShareVersionModel) (next : Nat)
    (newVersionId shareId : String) (schemaPtr : Option String)
    (actorSub : String) (now : Int) (keep : Int) :
    List ShareVersionModel × Nat :=
  let added := match schemaPtr with
    | some schema =>
      match AddShareVersion versions next newVersionId shareId schema actorSub now with
      | .ok r => r
      | .error _ => (versions, next)
    | none => (versions, next)
  if keep > 0 then
    match PruneShareVersions added.1 shareId keep with
    | .ok v2 => (v2, added.2)
    | .error _ => added
  else added

end EDS

namespace EDS

/-- Legacy-mode configuration: the shared secret, the session TTL (seconds)
and the version retention count (`cfg.ShareVersionsMax`). -/
structure Config where
  apiPassword : String
  sessionTTL : Int
  shareVersionsMax : Int
deriving Repr, DecidableEq

/-- `api.hasValidSession`: the request's session cookie token (empty when the
cookie is absent, per `auth.GetSessionToken`) names a session whose lookup
succeeds. The lookup's expired-row delete side effect is dropped here: every
caller runs after `CleanupExpiredSessions` at the same `now`, after which no
row can take the expired branch. -/
def hasValidSession (sessions : List SessionModel) (cookieToken : String)
    (now : Int) : Bool :=
  if cookieToken = "" then false
  else
    match (GetSessionShareID sessions cookieToken now).1 with
    | .ok _ => true
    | .error _ => false

/-- Outcome of `api.requireAuth`: whether the request may proceed, the error
written otherwise, the session table afterwards, and the session cookie
issued (token, expiry), if any. -/
structure AuthResult where
  allowed : Bool
  err : Option ApiErr
  sessions : List SessionModel
  setCookie : Option (String × Int)
deriving Repr, DecidableEq

/-- `api.requireAuth` (legacy mode): clean up expired sessions, accept any
valid session cookie outright; otherwise require the shared server password
(401 `password_required` when blank, 401 `invalid_password` when wrong); on a
correct password, when a share id is supplied, best-effort create a session
bound to it and set the cookie (the cookie is set even if the insert fails). -/
def requireAuth (cfg : Config) (sessions : List SessionModel) (cookieToken : String)
    (now : Int) (password : String) (shareIDForSession : String)
    (newToken : String) : AuthResult :=
  let sessions1 := CleanupExpiredSessions sessions now
  if hasValidSession sessions1 cookieToken now then ⟨true, none, sessions1, none⟩
  else if trimSpace password = "" then
    ⟨false, some ⟨401, "password_required"⟩, sessions1, none⟩
  else if passwordOK password cfg.apiPassword = false then
    ⟨false, some ⟨401, "invalid_password"⟩, sessions1, none⟩
  else if shareIDForSession = "" then ⟨true, none, sessions1, none⟩
  else
    match CreateSession sessions1 newToken shareIDForSession (now + cfg.sessionTTL) now with
    | .ok s2 => ⟨true, none, s2, some (newToken, now + cfg.sessionTTL)⟩
    | .error _ => ⟨true, none, sessions1, some (newToken, now + cfg.sessionTTL)⟩

/-- The mutable store state threaded through the share handlers. -/
structure ApiState where
  shares : List Share
  sessions : List SessionModel
  versions : List ShareVersionModel
  nextRowid : Nat
deriving Repr, DecidableEq

/-- `api.updateShareRequest`: body of `PUT /api/shares/{id}` (name is a
nullable pointer in the source). -/
structure UpdateShareRequest where
  schema : String
  name : Option String
  password : String
deriving Repr, DecidableEq

/-- `api.handleGetShare`: look the share up and serve it. The handler
receives the request's credentials (`oidcEnabled`, `bearer`) but never
consults them — the source marks the endpoint "Public endpoint: anyone with
the UUID can fetch the schema". -/
def handleGetShare (oidcEnabled : Bool) (bearer : Option AuthUser)
    (shares : List Share) (id : String) : Except ApiErr Share :=
  match GetShare shares id with
  | .error .notFound => .error ⟨404, "not_found"⟩
  | .error (.other _) => .error ⟨500, "db_read_failed"⟩
  | .ok sh => .ok sh

/-- `api.handleDeleteShare`: 401 when OIDC is not enabled; verify the bearer;
404 when the share is unknown; 403 unless the share's owner subject is
non-blank and equal to the caller's; then hard-delete. -/
def handleDeleteShare (oidcEnabled : Bool) (bearer : Option AuthUser)
    (shares : List Share) (id : String) : Except ApiErr String × List Share :=
  if oidcEnabled = false then (.error ⟨401, "unauthorized"⟩, shares)
  else
    match requireUser oidcEnabled bearer with
    | .error e => (.error e, shares)
    | .ok u =>
      match GetShare shares id with
      | .error .notFound => (.error ⟨404, "not_found"⟩, shares)
      | .error (.other _) => (.error ⟨500, "db_read_failed"⟩, shares)
      | .ok sh =>
        if trimSpace sh.ownerSub = "" ∨ ¬(sh.ownerSub = u.sub) then
          (.error ⟨403, "forbidden"⟩, shares)
        else
          match DeleteShare shares id with
          | .error .notFound => (.error ⟨404, "not_found"⟩, shares)
          | .error (.other _) => (.error ⟨500, "db_delete_failed"⟩, shares)
          | .ok shares1 => (.ok id, shares1)

/-- `api.handleUpdateShare`: validate the body (schema tag sniff, at least
one of schema/name); load the share (404 when unknown); authorize — in OIDC
mode owner-or-team-member via the bearer identity, in legacy mode
`requireAuth` (session cookie or password); then update the share fields and
run the best-effort version bookkeeping. `newSessionToken` / `newVersionId`
stand for the fresh UUIDs the source draws. -/
def handleUpdateShare (cfg : Config) (oidcEnabled : Bool) (bearer : Option AuthUser)
    (members : List TeamMemberModel) (st : ApiState) (id : String)
    (req : UpdateShareRequest) (cookieToken newSessionToken newVersionId : String)
    (now : Int) : Except ApiErr String × ApiState :=
  let schemaPtr : Option String := if req.schema = "" then none else some req.schema
  if req.schema ≠ "" ∧ ¬(goHasPrefix req.schema "EDS" = true ∨ goHasPrefix req.schema "TXT" = true) then
    (.error ⟨400, "invalid_schema"⟩, st)
  else if schemaPtr = none ∧ req.name = none then
    (.error ⟨400, "missing_update"⟩, st)
  else
    match GetShare st.shares id with
    | .error .notFound => (.error ⟨404, "not_found"⟩, st)
    | .error (.other _) => (.error ⟨500, "db_read_failed"⟩, st)
    | .ok sh =>
      let auth : Except ApiErr (List SessionModel) :=
        if oidcEnabled then
          match requireUser oidcEnabled bearer with
          | .error e => .error e
          | .ok u =>
            if trimSpace sh.ownerSub ≠ "" ∧ sh.ownerSub = u.sub then .ok st.sessions
            else match sh.teamId with
              | some tid =>
                if (IsTeamMember members tid u.sub).2 then .ok st.sessions
                else .error ⟨403, "forbidden"⟩
              | none => .error ⟨403, "forbidden"⟩
        else
          match requireAuth cfg st.sessions cookieToken now req.password id newSessionToken with
          | ⟨true, _, sessions1, _⟩ => .ok sessions1
          | ⟨false, some e, sessions1, _⟩ => .error e
          | ⟨false, none, sessions1, _⟩ => .error ⟨401, "unauthorized"⟩
      match auth with
      | .error e =>
        (.error e,
         { st with sessions :=
            if oidcEnabled then st.sessions
            else (requireAuth cfg st.sessions cookieToken now req.password id
                    newSessionToken).sessions })
      | .ok sessions1 =>
        match UpdateShareFields st.shares id schemaPtr req.name now with
        | .error .notFound => (.error ⟨404, "not_found"⟩, { st with sessions := sessions1 })
        | .error (.other _) => (.error ⟨500, "db_update_failed"⟩, { st with sessions := sessions1 })
        | .ok shares1 =>
          let actorSub : String :=
            if oidcEnabled then
              match requireUser oidcEnabled bearer with
              | .ok u => u.sub
              | .error _ => ""
            else ""
          let vb := shareVersionBookkeeping st.versions st.nextRowid newVersionId id
            schemaPtr actorSub now cfg.shareVersionsMax
          (.ok id,
           { shares := shares1, sessions := sessions1, versions := vb.1, nextRowid := vb.2 })

end EDS

namespace EDS

/-- C1 counterexample: with OIDC enabled and no bearer token at all, a GET of
an existing share is served (the handler performs no credential check),
contradicting the claim that such a request is rejected. -/
theorem getShare_oidc_no_auth_counterexample :
    handleGetShare true none [⟨"s1", "", "EDSdata", "alice", none, 0, 0⟩] "s1" =
      .ok ⟨"s1", "", "EDSdata", "alice", none, 0, 0⟩ := by
  rfl

/-- C1 (amended): a GET of a share by id performs no credential check at all
— in OIDC mode exactly as in legacy mode, any request for an existing share
id is served, and the response never depends on the request's credentials. -/
theorem getShare_public_regardless_of_credentials
    (shares : List Share) (id : String) :
    (∀ (oidcEnabled : Bool) (bearer : Option AuthUser) (sh : Share),
        GetShare shares id = .ok sh →
        handleGetShare oidcEnabled bearer shares id = .ok sh) ∧
    (∀ (o1 o2 : Bool) (b1 b2 : Option AuthUser),
        handleGetShare o1 b1 shares id = handleGetShare o2 b2 shares id) := by
  constructor
  · intro o b sh h
    unfold handleGetShare
    rw [h]
  · intro o1 o2 b1 b2
    rfl

/-- Concrete instance of `getShare_public_regardless_of_credentials`. -/
theorem getShare_public_regardless_of_credentials_witness :
    handleGetShare true none [⟨"s2", "n", "TXTdata", "", none, 1, 2⟩] "s2" =
      .ok ⟨"s2", "n", "TXTdata", "", none, 1, 2⟩ :=
  (getShare_public_regardless_of_credentials
      [⟨"s2", "n", "TXTdata", "", none, 1, 2⟩] "s2").1 true none _ (by rfl)

/-- C6: share deletion requires strict ownership. With OIDC disabled every
delete is rejected 401 unauthorized; in OIDC mode a delete can only succeed
when the authenticated subject equals the share's (non-blank) owner subject;
a caller who is merely a member of the share's team receives 403 forbidden. -/
theorem deleteShare_strict_owner
    (shares : List Share) (members : List TeamMemberModel) (id : String) :
    (∀ bearer, handleDeleteShare false bearer shares id =
        (.error ⟨401, "unauthorized"⟩, shares)) ∧
    (∀ (u : AuthUser) (sh : Share) (r : String) (shares1 : List Share),
        handleDeleteShare true (some u) shares id = (.ok r, shares1) →
        GetShare shares id = .ok sh →
        sh.ownerSub = u.sub ∧ trimSpace sh.ownerSub ≠ "") ∧
    (∀ (u : AuthUser) (sh : Share) (tid : String),
        GetShare shares id = .ok sh →
        sh.teamId = some tid →
        (IsTeamMember members tid u.sub).2 = true →
        ¬(sh.ownerSub = u.sub) →
        handleDeleteShare true (some u) shares id =
          (.error ⟨403, "forbidden"⟩, shares)) := by
  refine ⟨?_, ?_, ?_⟩
  · intro bearer
    rfl
  · intro u sh r shares1 h hsh
    unfold handleDeleteShare at h
    rw [if_neg (by simp)] at h
    rw [show requireUser true (some u) = .ok u from rfl] at h
    rw [hsh] at h
    simp only [] at h
    by_cases hc : trimSpace sh.ownerSub = "" ∨ ¬(sh.ownerSub = u.sub)
    · rw [if_pos hc] at h
      cases h
    · push_neg at hc
      exact ⟨hc.2, hc.1⟩
  · intro u sh tid hsh hteam hmem hnotown
    unfold handleDeleteShare
    rw [if_neg (by simp)]
    rw [show requireUser true (some u) = .ok u from rfl]
    rw [hsh]
    simp only []
    rw [if_pos (Or.inr hnotown)]

/-- Concrete instance of `deleteShare_strict_owner`: owner delete succeeds;
a mere team member gets 403; with OIDC off the delete is 401. -/
theorem deleteShare_strict_owner_witness :
    ((⟨"s1", "", "EDSx", "alice", some "t1", 0, 0⟩ : Share).ownerSub = "alice" ∧
      trimSpace (⟨"s1", "", "EDSx", "alice", some "t1", 0, 0⟩ : Share).ownerSub ≠ "") ∧
    (handleDeleteShare true (some ⟨"bob", "", ""⟩)
        [⟨"s1", "", "EDSx", "alice", some "t1", 0, 0⟩] "s1" =
      (.error ⟨403, "forbidden"⟩, [⟨"s1", "", "EDSx", "alice", some "t1", 0, 0⟩])) ∧
    (handleDeleteShare false (some ⟨"alice", "", ""⟩)
        [⟨"s1", "", "EDSx", "alice", some "t1", 0, 0⟩] "s1" =
      (.error ⟨401, "unauthorized"⟩, [⟨"s1", "", "EDSx", "alice", some "t1", 0, 0⟩])) := by
  have h := deleteShare_strict_owner [⟨"s1", "", "EDSx", "alice", some "t1", 0, 0⟩]
      [⟨"t1", "bob", "member", 0⟩] "s1"
  refine ⟨?_, ?_, ?_⟩
  · exact h.2.1 ⟨"alice", "", ""⟩ _ "s1" [] (by rfl) (by rfl)
  · exact h.2.2 ⟨"bob", "", ""⟩ _ "t1" (by rfl) (by rfl) (by rfl) (by decide)
  · exact h.1 (some ⟨"alice", "", ""⟩)

end EDS

namespace EDS

/-- C2 counterexample: in legacy mode, a `PUT` of share `"X"` with no
password succeeds on the strength of a valid session bound to the different
share `"Y"` — the session's bound share id is never compared to the target. -/
theorem legacy_update_other_share_session_counterexample :
    ((handleUpdateShare ⟨"pw", 100, 0⟩ false none []
        ⟨[⟨"X", "", "EDSa", "", none, 0, 0⟩], [⟨"tok", "Y", 100, 0⟩], [], 0⟩
        "X" ⟨"EDSb", none, ""⟩ "tok" "nt" "nv" 50).1 = .ok "X") ∧
    ((⟨"tok", "Y", 100, 0⟩ : SessionModel).shareId = "Y") ∧ ("Y" ≠ "X") := by
  exact ⟨by rfl, rfl, by decide⟩

/-- `hasValidSession` is true when the cookie names an unexpired session. -/
lemma hasValidSession_of_find (sessions : List SessionModel) (ct : String)
    (now : Int) (sess : SessionModel) (hct : ct ≠ "")
    (hf : sessions.find? (fun s => s.token == ct) = some sess)
    (hv : now < sess.expiresAt) :
    hasValidSession sessions ct now = true := by
  unfold hasValidSession GetSessionShareID
  rw [if_neg hct, hf]
  simp only []
  rw [if_neg (by simpa using not_le.mpr hv)]

/-- `requireAuth` accepts outright on a valid session, leaving the
(cleaned-up) session table unchanged and issuing no cookie. -/
lemma requireAuth_of_valid_session (cfg : Config) (sessions : List SessionModel)
    (ct : String) (now : Int) (pw sid nt : String)
    (h : hasValidSession (CleanupExpiredSessions sessions now) ct now = true) :
    requireAuth cfg sessions ct now pw sid nt =
      ⟨true, none, CleanupExpiredSessions sessions now, none⟩ := by
  simp only [requireAuth]
  rw [if_pos h]

/-- `GetShare` success implies the row exists. -/
lemma GetShare_ok_any (shares : List Share) (id : String) (sh : Share)
    (h : GetShare shares id = .ok sh) :
    shares.any (fun s => s.id == id) = true := by
  unfold GetShare at h
  cases hf : shares.find? (fun s => s.id == id) with
  | none => rw [hf] at h; cases h
  | some x =>
    have hp := List.find?_some hf
    exact List.any_eq_true.mpr ⟨x, List.mem_of_find?_eq_some hf, hp⟩

/-- C2 (amended): in legacy mode, an update of share `id` succeeds without a
password whenever the caller presents any valid, unexpired session — the
session's stored share id is not required to equal `id`; session validity
alone authorizes the update. -/
theorem legacy_update_any_valid_session
    (cfg : Config) (members : List TeamMemberModel) (st : ApiState) (id : String)
    (req : UpdateShareRequest) (cookieToken newSessionToken newVersionId : String)
    (now : Int) (sess : SessionModel) (sh : Share)
    (hct : cookieToken ≠ "")
    (hfind : (CleanupExpiredSessions st.sessions now).find?
        (fun s => s.token == cookieToken) = some sess)
    (hvalid : now < sess.expiresAt)
    (hpw : trimSpace req.password = "")
    (hne : req.schema ≠ "")
    (hschema : goHasPrefix req.schema "EDS" = true)
    (hsh : GetShare st.shares id = .ok sh) :
    (handleUpdateShare cfg false none members st id req cookieToken
        newSessionToken newVersionId now).1 = .ok id := by
  have hsess : hasValidSession (CleanupExpiredSessions st.sessions now)
      cookieToken now = true :=
    hasValidSession_of_find _ _ _ _ hct hfind hvalid
  simp only [handleUpdateShare]
  rw [if_neg (fun hcon => hcon.2 (Or.inl hschema))]
  rw [if_neg (fun hcon => by rw [if_neg hne] at hcon; exact Option.noConfusion hcon.1)]
  rw [hsh]
  simp only [Bool.false_eq_true, if_false]
  rw [requireAuth_of_valid_session cfg st.sessions cookieToken now req.password id
    newSessionToken hsess]
  simp only []
  rw [show UpdateShareFields st.shares id
      (if req.schema = "" then none else some req.schema) req.name now =
      .ok (st.shares.map (fun s =>
        if s.id == id then
          { s with
            schema := (if req.schema = "" then none else some req.schema).getD s.schema,
            name := req.name.getD s.name, updatedAt := now }
        else s)) from by
    unfold UpdateShareFields
    rw [if_pos (GetShare_ok_any st.shares id sh hsh)]]

/-- Concrete instance of `legacy_update_any_valid_session`. -/
theorem legacy_update_any_valid_session_witness :
    (handleUpdateShare ⟨"pw", 100, 7⟩ false none []
        ⟨[⟨"A", "", "EDSa", "", none, 0, 0⟩], [⟨"c", "B", 60, 0⟩], [], 0⟩
        "A" ⟨"EDSnew", none, ""⟩ "c" "nt" "nv" 10).1 = .ok "A" :=
  legacy_update_any_valid_session ⟨"pw", 100, 7⟩ []
    ⟨[⟨"A", "", "EDSa", "", none, 0, 0⟩], [⟨"c", "B", 60, 0⟩], [], 0⟩
    "A" ⟨"EDSnew", none, ""⟩ "c" "nt" "nv" 10 ⟨"c", "B", 60, 0⟩
    ⟨"A", "", "EDSa", "", none, 0, 0⟩
    (by decide) (by rfl) (by decide) (by rfl) (by decide) (by rfl) (by rfl)

end EDS

namespace EDS

/-- In a list strictly sorted ascending by `lt`, keeping the rows with fewer
than `k` strictly-greater rows keeps exactly the last `k`. -/
lemma filter_count_lt_eq_drop {α : Type} (lt : α → α → Bool) (k : Nat)
    (L : List α)
    (hpw : L.Pairwise (fun a b => lt a b = true))
    (hirr : ∀ a ∈ L, lt a a = false)
    (hasym : ∀ a b, lt a b = true → lt b a = false) :
    L.filter (fun r => decide ((L.filter (fun x => lt r x)).length < k)) =
      L.drop (L.length - k) := by
  induction L with
  | nil => simp
  | cons a t ih =>
    rw [List.pairwise_cons] at hpw
    have hat : ∀ b ∈ t, lt a b = true := hpw.1
    have hirr_t : ∀ b ∈ t, lt b b = false :=
      fun b hb => hirr b (List.mem_cons_of_mem a hb)
    have hcount_a : ((a :: t).filter (fun x => lt a x)) = t := by
      rw [List.filter_cons_of_neg (by simp [hirr a (List.mem_cons_self a t)])]
      exact List.filter_eq_self.mpr (fun b hb => hat b hb)
    have hcount_t : ∀ r ∈ t,
        ((a :: t).filter (fun x => lt r x)) = t.filter (fun x => lt r x) := by
      intro r hr
      rw [List.filter_cons_of_neg (by simp [hasym a r (hat r hr)])]
    have hfc : (a :: t).filter
        (fun r => decide (((a :: t).filter (fun x => lt r x)).length < k)) =
        (if t.length < k then [a] else []) ++
          t.filter (fun r => decide ((t.filter (fun x => lt r x)).length < k)) := by
      rw [List.filter_cons]
      rw [show t.filter (fun r => decide (((a :: t).filter (fun x => lt r x)).length < k)) =
            t.filter (fun r => decide ((t.filter (fun x => lt r x)).length < k)) from
        List.filter_congr (fun r hr => by rw [hcount_t r hr])]
      by_cases hlen : t.length < k
      · rw [if_pos (by rw [hcount_a]; simpa using hlen), if_pos hlen]
        rfl
      · rw [if_neg (by rw [hcount_a]; simpa using hlen), if_neg hlen]
        rfl
    rw [hfc, ih hpw.2 hirr_t]
    by_cases hlen : t.length < k
    · rw [if_pos hlen]
      simp only [List.length_cons]
      rw [show t.length + 1 - k = 0 from by omega, show t.length - k = 0 from by omega]
      simp
    · rw [if_neg hlen]
      have h1 : (a :: t).length - k = (t.length - k) + 1 := by
        simp only [List.length_cons]
        omega
      rw [h1, List.drop_succ_cons, List.nil_append]

lemma svKeyLt_irrefl (a : ShareVersionModel) : svKeyLt a a = false := by
  simp [svKeyLt]

lemma svKeyLt_asymm (a b : ShareVersionModel) (h : svKeyLt a b = true) :
    svKeyLt b a = false := by
  simp only [svKeyLt, Bool.or_eq_true, Bool.and_eq_true, decide_eq_true_eq,
    beq_iff_eq] at h
  have h1 : ¬(b.createdAt < a.createdAt) := by omega
  have h2 : ¬(b.createdAt = a.createdAt ∧ b.rowid < a.rowid) := by omega
  simp only [svKeyLt, Bool.or_eq_false_iff, Bool.and_eq_false_iff]
  constructor
  · simpa using h1
  · by_cases hbe : b.createdAt = a.createdAt
    · right
      simp only [decide_eq_false_iff_not]
      omega
    · left
      simpa using hbe

/-- Effect of `PruneShareVersions` on the rows of the pruned share, when they
are strictly ascending in the `(created_at, rowid)` order: exactly the last
`keep` remain. -/
lemma prune_sid_filter (rows : List ShareVersionModel) (sid : String) (keep : Int)
    (hsid : trimSpace sid = sid) (hne : sid ≠ "") (hk : 0 < keep)
    (hpw : (rows.filter (fun r => r.shareId == sid)).Pairwise
      (fun a b => svKeyLt a b = true)) :
    ∃ rows1, PruneShareVersions rows sid keep = .ok rows1 ∧
      rows1.filter (fun r => r.shareId == sid) =
        (rows.filter (fun r => r.shareId == sid)).drop
          ((rows.filter (fun r => r.shareId == sid)).length - keep.toNat) := by
  unfold PruneShareVersions
  rw [hsid, if_neg hne, if_neg (not_le.mpr hk)]
  refine ⟨_, rfl, ?_⟩
  rw [List.filter_filter]
  have hstep1 : rows.filter (fun a => (a.shareId == sid) &&
      (!(a.shareId == sid) ||
        decide (((rows.filter (fun x => x.shareId == sid && svKeyLt a x)).length : Int) < keep))) =
      rows.filter (fun a =>
        decide ((((rows.filter (fun r => r.shareId == sid)).filter
          (fun x => svKeyLt a x)).length : Int) < keep) && (a.shareId == sid)) := by
    refine List.filter_congr (fun a _ => ?_)
    have hcc : rows.filter (fun x => x.shareId == sid && svKeyLt a x) =
        (rows.filter (fun r => r.shareId == sid)).filter (fun x => svKeyLt a x) := by
      rw [List.filter_filter]
      exact List.filter_congr (fun x _ => Bool.and_comm _ _)
    rw [hcc]
    by_cases hs : (a.shareId == sid) = true
    · simp [hs]
    · simp [Bool.eq_false_iff.mpr (fun hc => hs hc)]
  rw [hstep1, ← List.filter_filter]
  rw [show (rows.filter (fun r => r.shareId == sid)).filter (fun a =>
        decide ((((rows.filter (fun r => r.shareId == sid)).filter
          (fun x => svKeyLt a x)).length : Int) < keep)) =
      (rows.filter (fun r => r.shareId == sid)).filter (fun a =>
        decide ((((rows.filter (fun r => r.shareId == sid)).filter
          (fun x => svKeyLt a x)).length) < keep.toNat)) from
    List.filter_congr (fun a _ => decide_eq_decide.mpr (by omega))]
  exact filter_count_lt_eq_drop svKeyLt keep.toNat _ hpw
    (fun a _ => svKeyLt_irrefl a) svKeyLt_asymm

end EDS


namespace EDS

/-- One successful schema-writing update: the fresh version UUID the handler
draws, the new schema, the acting subject, and the update's timestamp. -/
structure UpdateIn where
  versionId : String
  schema : String
  actorSub : String
  now : Int
deriving Repr, DecidableEq

/-- The version row one schema-writing update inserts (rowid `next`). -/
def updRow (sid : String) (next : Nat) (u : UpdateIn) : ShareVersionModel :=
  ⟨next, trimSpace u.versionId, sid, u.schema, u.now, trimSpace u.actorSub⟩

/-- The version rows a sequence of schema-writing updates inserts (in
insertion order, rowids counting up from `next0`) when nothing is pruned. -/
def insertedRows (sid : String) (next0 : Nat) : List UpdateIn → List ShareVersionModel
  | [] => []
  | u :: rest => updRow sid next0 u :: insertedRows sid (next0 + 1) rest

/-- Run the version bookkeeping of one successful schema-writing
`handleUpdateShare` per element, in order. -/
def applyShareUpdates (rows : List ShareVersionModel) (next : Nat) (sid : String)
    (keep : Int) : List UpdateIn → List ShareVersionModel × Nat
  | [] => (rows, next)
  | u :: rest =>
    applyShareUpdates
      (shareVersionBookkeeping rows next u.versionId sid (some u.schema)
        u.actorSub u.now keep).1
      (shareVersionBookkeeping rows next u.versionId sid (some u.schema)
        u.actorSub u.now keep).2
      sid keep rest

lemma insertedRows_length (sid : String) (us : List UpdateIn) :
    ∀ next0, (insertedRows sid next0 us).length = us.length := by
  induction us with
  | nil => intro n; rfl
  | cons u rest ih =>
    intro n
    simp only [insertedRows, List.length_cons, ih]

lemma updRow_shareId (sid : String) (next : Nat) (u : UpdateIn) :
    (updRow sid next u).shareId = sid := rfl

/-- One bookkeeping step when retention is disabled: the row is appended and
nothing is pruned. -/
lemma bookkeeping_step_nokeep (rows : List ShareVersionModel) (next : Nat)
    (u : UpdateIn) (sid : String) (hsid : trimSpace sid = sid) (hne : sid ≠ "")
    (keep : Int) (hk : keep ≤ 0) :
    shareVersionBookkeeping rows next u.versionId sid (some u.schema)
        u.actorSub u.now keep =
      (rows ++ [updRow sid next u], next + 1) := by
  simp only [shareVersionBookkeeping, AddShareVersion, updRow]
  rw [hsid, if_neg hne]
  simp only []
  rw [if_neg (not_lt.mpr hk)]

/-- C4, disabled-retention half, in iterated form: with `keep <= 0` no
version row is ever deleted — after `N` updates all `N` inserted rows are
present alongside whatever the share already had. -/
lemma applyShareUpdates_nokeep (sid : String) (hsid : trimSpace sid = sid)
    (hne : sid ≠ "") (keep : Int) (hk : keep ≤ 0) :
    ∀ (us : List UpdateIn) (rows : List ShareVersionModel) (next : Nat),
      (applyShareUpdates rows next sid keep us).1.filter
          (fun r => r.shareId == sid) =
        rows.filter (fun r => r.shareId == sid) ++ insertedRows sid next us := by
  intro us
  induction us with
  | nil =>
    intro rows next
    simp [applyShareUpdates, insertedRows]
  | cons u rest ih =>
    intro rows next
    simp only [applyShareUpdates]
    rw [bookkeeping_step_nokeep rows next u sid hsid hne keep hk]
    rw [ih]
    rw [List.filter_append]
    rw [List.filter_cons_of_pos (by simp [updRow])]
    simp [insertedRows]

/-- Dropping to the last `k` elements commutes with first dropping the prefix
of the first block: keeping the last `k` of `A.drop (A.length - k) ++ I` is
keeping the last `k` of `A ++ I`. -/
lemma drop_window_absorb {α : Type} (A I : List α) (k : Nat) :
    ((A.drop (A.length - k)) ++ I).drop
        (((A.drop (A.length - k)) ++ I).length - k) =
      (A ++ I).drop ((A ++ I).length - k) := by
  have h1 : (A.drop (A.length - k)) ++ I = (A ++ I).drop (A.length - k) := by
    rw [List.drop_append_eq_append_drop,
      show A.length - k - A.length = 0 from by omega, List.drop_zero]
  rw [h1, List.drop_drop]
  congr 1
  simp only [List.length_drop, List.length_append]
  omega

end EDS

namespace EDS

/-- C4, retention half, in iterated form: starting from a window of at most
`keep` rows, strictly ascending in `(created_at, rowid)`, older than and
rowid-below every coming update, each further update appends its row and the
prune keeps exactly the newest `keep` of what would have accumulated. -/
lemma applyShareUpdates_window (sid : String) (hsid : trimSpace sid = sid)
    (hne : sid ≠ "") (keep : Int) (hk : 0 < keep) :
    ∀ (us : List UpdateIn) (rows : List ShareVersionModel) (next : Nat),
      (rows.filter (fun r => r.shareId == sid)).Pairwise
        (fun a b => svKeyLt a b = true) →
      (rows.filter (fun r => r.shareId == sid)).length ≤ keep.toNat →
      (∀ r ∈ rows.filter (fun r => r.shareId == sid), r.rowid < next) →
      (∀ r ∈ rows.filter (fun r => r.shareId == sid), ∀ u ∈ us, r.createdAt ≤ u.now) →
      (us.map (fun u => u.now)).Chain' (· ≤ ·) →
      (applyShareUpdates rows next sid keep us).1.filter (fun r => r.shareId == sid) =
        (rows.filter (fun r => r.shareId == sid) ++ insertedRows sid next us).drop
          ((rows.filter (fun r => r.shareId == sid) ++ insertedRows sid next us).length
            - keep.toNat) := by
  intro us
  induction us with
  | nil =>
    intro rows next hpw hlen hrow htime hch
    simp only [applyShareUpdates, insertedRows, List.append_nil]
    rw [show (rows.filter (fun r => r.shareId == sid)).length - keep.toNat = 0
      from by omega]
    rw [List.drop_zero]
  | cons u rest ih =>
    intro rows next hpw hlen hrow htime hch
    have hw1 : (rows ++ [updRow sid next u]).filter (fun r => r.shareId == sid) =
        rows.filter (fun r => r.shareId == sid) ++ [updRow sid next u] := by
      rw [List.filter_append, List.filter_cons_of_pos (by simp [updRow])]
      rfl
    have hcross : ∀ a ∈ rows.filter (fun r => r.shareId == sid),
        svKeyLt a (updRow sid next u) = true := by
      intro a ha
      have h1 : a.createdAt ≤ u.now := htime a ha u (List.mem_cons_self u rest)
      have h2 : a.rowid < next := hrow a ha
      simp only [svKeyLt, updRow, Bool.or_eq_true, Bool.and_eq_true,
        decide_eq_true_eq, beq_iff_eq]
      omega
    have hpw1 : ((rows ++ [updRow sid next u]).filter
        (fun r => r.shareId == sid)).Pairwise (fun a b => svKeyLt a b = true) := by
      rw [hw1, List.pairwise_append]
      refine ⟨hpw, List.pairwise_singleton _ _, ?_⟩
      intro a ha b hb
      rw [List.mem_singleton] at hb
      rw [hb]
      exact hcross a ha
    obtain ⟨rows2, hpr, hf2⟩ := prune_sid_filter (rows ++ [updRow sid next u])
      sid keep hsid hne hk hpw1
    rw [hw1] at hf2
    have hstep : shareVersionBookkeeping rows next u.versionId sid (some u.schema)
        u.actorSub u.now keep = (rows2, next + 1) := by
      simp only [shareVersionBookkeeping, AddShareVersion]
      rw [hsid, if_neg hne]
      simp only []
      rw [if_pos hk]
      rw [show (rows ++ [(⟨next, trimSpace u.versionId, sid, u.schema, u.now,
        trimSpace u.actorSub⟩ : ShareVersionModel)]) = rows ++ [updRow sid next u]
        from rfl]
      rw [hpr]
    have hchp := List.chain'_iff_pairwise.mp hch
    rw [List.map_cons, List.pairwise_cons] at hchp
    have hpw2 : (rows2.filter (fun r => r.shareId == sid)).Pairwise
        (fun a b => svKeyLt a b = true) := by
      rw [hf2]
      refine List.Pairwise.sublist (List.drop_sublist _ _) ?_
      rw [← hw1]
      exact hpw1
    have hlen2 : (rows2.filter (fun r => r.shareId == sid)).length ≤ keep.toNat := by
      rw [hf2, List.length_drop]
      omega
    have hmem2 : ∀ r ∈ rows2.filter (fun r => r.shareId == sid),
        r ∈ rows.filter (fun r => r.shareId == sid) ∨ r = updRow sid next u := by
      intro r hr
      rw [hf2] at hr
      have hmem := List.mem_of_mem_drop hr
      rcases List.mem_append.mp hmem with h | h
      · exact Or.inl h
      · exact Or.inr (List.mem_singleton.mp h)
    have hrow2 : ∀ r ∈ rows2.filter (fun r => r.shareId == sid),
        r.rowid < next + 1 := by
      intro r hr
      rcases hmem2 r hr with h | h
      · exact Nat.lt_succ_of_lt (hrow r h)
      · rw [h]
        exact Nat.lt_succ_self next
    have htime2 : ∀ r ∈ rows2.filter (fun r => r.shareId == sid),
        ∀ v ∈ rest, r.createdAt ≤ v.now := by
      intro r hr v hv
      rcases hmem2 r hr with h | h
      · exact htime r h v (List.mem_cons_of_mem u hv)
      · rw [h]
        exact hchp.1 v.now (List.mem_map_of_mem _ hv)
    have hch2 : (rest.map (fun v => v.now)).Chain' (· ≤ ·) := by
      have ht := hch.tail
      simpa using ht
    simp only [applyShareUpdates]
    rw [hstep]
    rw [ih rows2 (next + 1) hpw2 hlen2 hrow2 htime2 hch2, hf2]
    rw [show insertedRows sid next (u :: rest) =
        updRow sid next u :: insertedRows sid (next + 1) rest from rfl]
    rw [show rows.filter (fun r => r.shareId == sid) ++
        (updRow sid next u :: insertedRows sid (next + 1) rest) =
        (rows.filter (fun r => r.shareId == sid) ++ [updRow sid next u]) ++
          insertedRows sid (next + 1) rest from by simp]
    exact drop_window_absorb _ _ _

end EDS

namespace EDS

/-- C4: for a share starting with no version rows, after `N` successful
schema-writing updates (timestamps non-decreasing) with retention
`keep > 0`, exactly `min N keep` version rows remain for that share and they
are the most recently created ones (`created_at` descending, ties broken by
insertion order, i.e. the last `min N keep` inserted); with `keep <= 0`
pruning is disabled and no version row is ever deleted. -/
theorem version_retention
    (sid : String) (rows0 : List ShareVersionModel) (next0 : Nat) (keep : Int)
    (updates : List UpdateIn)
    (hsid : trimSpace sid = sid) (hne : sid ≠ "")
    (hinit : rows0.filter (fun r => r.shareId == sid) = [])
    (hmono : (updates.map (fun u => u.now)).Chain' (· ≤ ·)) :
    (0 < keep →
      ((applyShareUpdates rows0 next0 sid keep updates).1.filter
          (fun r => r.shareId == sid)).length = min updates.length keep.toNat ∧
      (applyShareUpdates rows0 next0 sid keep updates).1.filter
          (fun r => r.shareId == sid) =
        (insertedRows sid next0 updates).drop (updates.length - keep.toNat)) ∧
    (keep ≤ 0 →
      (applyShareUpdates rows0 next0 sid keep updates).1.filter
          (fun r => r.shareId == sid) = insertedRows sid next0 updates) := by
  constructor
  · intro hk
    have h := applyShareUpdates_window sid hsid hne keep hk updates rows0 next0
      (by rw [hinit]; exact List.Pairwise.nil)
      (by rw [hinit]; simp)
      (by rw [hinit]; intro r hr; cases hr)
      (by rw [hinit]; intro r hr; cases hr)
      hmono
    rw [hinit, List.nil_append] at h
    rw [insertedRows_length sid updates next0] at h
    constructor
    · rw [h, List.length_drop, insertedRows_length sid updates next0]
      omega
    · rw [h]
  · intro hk
    have h := applyShareUpdates_nokeep sid hsid hne keep hk updates rows0 next0
    rw [hinit, List.nil_append] at h
    exact h

/-- Concrete instance of `version_retention`: three updates with `keep = 2`
leave exactly the two newest version rows; with `keep = 0` all three remain. -/
theorem version_retention_witness :
    (((applyShareUpdates [] 0 "s" 2
        [⟨"v1", "EDS1", "", 1⟩, ⟨"v2", "EDS2", "", 2⟩, ⟨"v3", "EDS3", "", 3⟩]).1.filter
        (fun r => r.shareId == "s")).length = min 3 (2 : Int).toNat) ∧
    ((applyShareUpdates [] 0 "s" 0
        [⟨"v1", "EDS1", "", 1⟩, ⟨"v2", "EDS2", "", 2⟩, ⟨"v3", "EDS3", "", 3⟩]).1.filter
        (fun r => r.shareId == "s") =
      insertedRows "s" 0
        [⟨"v1", "EDS1", "", 1⟩, ⟨"v2", "EDS2", "", 2⟩, ⟨"v3", "EDS3", "", 3⟩]) := by
  have h2 := version_retention "s" [] 0 2
    [⟨"v1", "EDS1", "", 1⟩, ⟨"v2", "EDS2", "", 2⟩, ⟨"v3", "EDS3", "", 3⟩]
    (by rfl) (by decide) (by rfl)
    (by
      simp only [List.map_cons, List.map_nil]
      exact List.chain'_cons.mpr ⟨by norm_num,
        List.chain'_cons.mpr ⟨by norm_num, List.chain'_singleton _⟩⟩)
  have h0 := version_retention "s" [] 0 0
    [⟨"v1", "EDS1", "", 1⟩, ⟨"v2", "EDS2", "", 2⟩, ⟨"v3", "EDS3", "", 3⟩]
    (by rfl) (by decide) (by rfl)
    (by
      simp only [List.map_cons, List.map_nil]
      exact List.chain'_cons.mpr ⟨by norm_num,
        List.chain'_cons.mpr ⟨by norm_num, List.chain'_singleton _⟩⟩)
  exact ⟨(h2.1 (by norm_num)).1, h0.2 (by norm_num)⟩

end EDS
